import Mathlib

/-!
Verification of the 1D DBSCAN implementation (`src/dbscan1d/core.py`).

The Python source is shallowly embedded: real-valued samples and weights
become rationals, numpy arrays become lists, the vectorised calls
(`np.searchsorted`, `np.cumsum`, boolean masking, fancy indexing) become
the corresponding list operations, and the fallible `fit` entry point
returns `Except`.
-/

namespace Dbscan

/-- Model of `np.searchsorted(a, v, side="left")` on a sorted array `a`:
the first position whose value is `≥ v`, i.e. the number of elements
strictly below `v`. -/
def searchsorted_left (a : List ℚ) (v : ℚ) : ℕ :=
  a.countP (fun t => decide (t < v))

/-- Model of `np.searchsorted(a, v, side="right")` on a sorted array `a`:
the first position whose value is `> v`, i.e. the number of elements `≤ v`. -/
def searchsorted_right (a : List ℚ) (v : ℚ) : ℕ :=
  a.countP (fun t => decide (t ≤ v))

/-- Model of `np.insert(np.cumsum(w), 0, 0)[k]`: the sum of the first `k`
weights (the `cumulated_weight` array of `_get_is_core`, read at index `k`). -/
def cum_weight (w : List ℚ) (k : ℕ) : ℚ :=
  (w.take k).sum

/-- Embedding of `DBSCAN1D._get_is_core`: for each sorted value `v`,
compare the weight accumulated on the index range
`[searchsorted(ar, v - eps, left), searchsorted(ar, v + eps, right))`
against `min_samples`. -/
def get_is_core (eps min_samples : ℚ) (ar w : List ℚ) : List Bool :=
  ar.map (fun v =>
    decide (min_samples ≤
      cum_weight w (searchsorted_right ar (v + eps)) -
      cum_weight w (searchsorted_left ar (v - eps))))

/-- Model of `np.roll(l, 1)`: rotate the list one step to the right. -/
def roll1 (l : List ℚ) : List ℚ :=
  match l.getLast? with
  | none => []
  | some t => t :: l.dropLast

/-- Embedding of `DBSCAN1D._assign_core_group_numbers`: flag positions whose
absolute gap to the rolled-by-one list exceeds `eps`, force the first flag to
`False` (the `len(gt_eps)` guard is the no-op `List.set` on `[]`), then take
the running count of `True` flags (`astype(int).cumsum()`). -/
def assign_core_group_numbers (eps : ℚ) (cores : List ℚ) : List ℤ :=
  let gt_eps := List.zipWith (fun a b => decide (|a - b| > eps)) cores (roll1 cores)
  let gt_eps := gt_eps.set 0 false
  (List.range gt_eps.length).map (fun i => ((gt_eps.take (i + 1)).countP id : ℤ))

/-- Embedding of `DBSCAN1D._bound_on` at a single index: clamp negative
values to `0`, then values `≥ max_len` to `max_len - 1`. -/
def bound_on (max_len : ℕ) (i : ℤ) : ℤ :=
  let j := if i < 0 then 0 else i
  if (max_len : ℤ) ≤ j then (max_len : ℤ) - 1 else j

/-- One entry of `DBSCAN1D._get_non_core_labels`: the label the vectorised
code computes for a single non-core value `x`. `argmin` on the pair of
candidate distances returns the first minimal index, so the left candidate
wins ties. -/
def non_core_label (eps : ℚ) (cores : List ℚ) (core_nums : List ℤ) (x : ℚ) : ℤ :=
  if cores.length = 0 then -1
  else
    let cc_right := bound_on cores.length (searchsorted_left cores x)
    let cc_left := bound_on cores.length ((searchsorted_left cores x : ℤ) - 1)
    let d_left := |cores.getD cc_left.toNat 0 - x|
    let d_right := |cores.getD cc_right.toNat 0 - x|
    if min d_left d_right ≤ eps then
      core_nums.getD (if d_left ≤ d_right then cc_left.toNat else cc_right.toNat) 0
    else -1

/-- Embedding of `DBSCAN1D._get_non_core_labels`: elementwise over the
non-core values (the early return on `len(cores) == 0` is the constant `-1`
branch of `non_core_label`). -/
def get_non_core_labels (eps : ℚ) (non_cores cores : List ℚ) (core_nums : List ℤ) : List ℤ :=
  non_cores.map (non_core_label eps cores core_nums)

/-- Model of numpy boolean-mask selection `l[mask]`. -/
def mask_select {α : Type} (mask : List Bool) (l : List α) : List α :=
  ((mask.zip l).filter (fun p => p.1)).map (fun p => p.2)

/-- Model of the pair of masked stores
`group_nums[is_core] = core_nums; group_nums[~is_core] = non_core_nums`:
interleave the two label streams following the mask.  The mismatched-length
patterns never arise in `fit`. -/
def merge_by_mask : List Bool → List ℤ → List ℤ → List ℤ
  | [], _, _ => []
  | true :: m, c :: cs, ns => c :: merge_by_mask m cs ns
  | false :: m, cs, x :: ns => x :: merge_by_mask m cs ns
  | true :: m, [], ns => 0 :: merge_by_mask m [] ns
  | false :: m, cs, [] => 0 :: merge_by_mask m cs []

/-- Model of `np.argsort`: the list of indices that sorts the array,
breaking ties between equal values by original position. -/
def argsort {α : Type} [LinearOrder α] [Inhabited α] (l : List α) : List ℕ :=
  (List.range l.length).insertionSort (fun i j =>
    l.getD i default < l.getD j default ∨
      (l.getD i default = l.getD j default ∧ i ≤ j))

/-- Input of `DBSCAN1D.fit`: the flattened sample values, the original
array shape, and the optional sample weights. -/
structure FitInput where
  x : List ℚ
  shape : List ℕ
  weights : Option (List ℚ)
deriving DecidableEq, Repr

/-- Result of a successful `DBSCAN1D.fit`: the labels in original input
order and the ascending original indices of the core samples. -/
structure FitResult where
  labels : List ℤ
  core_sample_indices : List ℕ
deriving DecidableEq, Repr

/-- Shape test of `fit`: `len(X.shape) == 1 or X.shape[-1] == 1`.
An empty shape (a 0-d array) makes the Python read `X.shape[-1]` raise,
so the call fails either way; the model folds that into `false`. -/
def shape_ok (shape : List ℕ) : Bool :=
  shape.length == 1 || shape.getLast?.getD 0 == 1

/-- Embedding of `DBSCAN1D.fit`.  The failure points — the shape assertion
and the fancy-indexing read `sample_weight[sorted_index]`, which raises when
some index is out of bounds (only possible when the weights are shorter than
`X`) — all precede the final result.  Weights longer than `X` are silently
indexed only at positions `0 .. n-1`, as in the source. -/
def fit (eps min_samples : ℚ) (inp : FitInput) : Except String FitResult :=
  if ¬ shape_ok inp.shape then .error "X must be 1d array"
  else
    let ar := inp.x
    let sample_weight := inp.weights.getD (ar.map (fun _ => (1 : ℚ)))
    let sorted_index := argsort ar
    match sorted_index.mapM (fun i => sample_weight[i]?) with
    | none => .error "index out of bounds"
    | some sample_weight_sorted =>
      let ar_sorted := sorted_index.map (fun i => ar.getD i 0)
      let undo_sorted := argsort sorted_index
      let is_core := get_is_core eps min_samples ar_sorted sample_weight_sorted
      let cores := mask_select is_core ar_sorted
      let non_cores := mask_select (is_core.map (!·)) ar_sorted
      let core_nums := assign_core_group_numbers eps cores
      let non_core_nums := get_non_core_labels eps non_cores cores core_nums
      let group_nums := merge_by_mask is_core core_nums non_core_nums
      let out := undo_sorted.map (fun j => group_nums.getD j 0)
      let is_core_orig := undo_sorted.map (fun j => is_core.getD j false)
      let core_idx := (List.range ar.length).filter (fun i => is_core_orig.getD i false)
      .ok { labels := out, core_sample_indices := core_idx }

/-- Estimator state: constructor parameters plus the two fields that a
successful `fit` stores. -/
structure DBSCAN1D where
  eps : ℚ
  min_samples : ℚ
  labels_ : Option (List ℤ)
  core_sample_indices_ : Option (List ℕ)
deriving DecidableEq, Repr

/-- Embedding of `DBSCAN1D.__init__`: the only check is on the lower-cased
metric string; `eps` and `min_samples` are stored unexamined. -/
def init (eps min_samples : ℚ) (metric : String) : Except String DBSCAN1D :=
  if metric.toLower ≠ "euclidean" then
    .error "only euclidean distance is supported by DBSCAN1D"
  else
    .ok { eps := eps, min_samples := min_samples,
          labels_ := none, core_sample_indices_ := none }

/-- Embedding of `fit` as a state update on the estimator: the source
assigns `self.core_sample_indices_` and `self.labels_` only in the last
lines of `fit`, after every failure point, so a failing call leaves the
stored fields untouched. -/
def fit_update (m : DBSCAN1D) (inp : FitInput) : DBSCAN1D :=
  match fit m.eps m.min_samples inp with
  | .error _ => m
  | .ok r => { m with labels_ := some r.labels,
                      core_sample_indices_ := some r.core_sample_indices }

/-- Convenience view of a `fit` call that succeeded. -/
def fit_succeeds (eps min_samples : ℚ) (inp : FitInput) : Bool :=
  match fit eps min_samples inp with
  | .ok _ => true
  | .error _ => false

/-- Specification-side definition, following the words of the spec: the total
weight carried by the (value, weight) pairs whose value lies in the closed
interval `[a, b]`. -/
def interval_weight (pairs : List (ℚ × ℚ)) (a b : ℚ) : ℚ :=
  ((pairs.filter (fun p => decide (a ≤ p.1 ∧ p.1 ≤ b))).map (fun p => p.2)).sum

/-- Specification-side definition: the minimum of `|x - c|` over the values
`c` of a nonempty list (`0` on the empty list). -/
def min_dist (x : ℚ) : List ℚ → ℚ
  | [] => 0
  | c :: cs => if cs = [] then |x - c| else min (|x - c|) (min_dist x cs)

/-- In a sorted list a predicate that is closed under lowering holds exactly
on an initial segment, whose length is its `countP`. -/
theorem sorted_getD_iff_lt_countP (l : List ℚ) (hs : l.Sorted (· ≤ ·))
    (p : ℚ → Bool) (hp : ∀ a b : ℚ, a ≤ b → p b = true → p a = true)
    (i : ℕ) (hi : i < l.length) :
    p (l.getD i 0) = true ↔ i < l.countP p := by
  induction l generalizing i with
  | nil => simp at hi
  | cons a t ih =>
    rw [List.sorted_cons] at hs
    obtain ⟨ha, hst⟩ := hs
    rw [List.countP_cons]
    cases i with
    | zero =>
      by_cases hpa : p a = true
      · simp [hpa]
      · have ht : t.countP p = 0 :=
          List.countP_eq_zero.mpr (fun b hb hpb => hpa (hp a b (ha b hb) hpb))
        simp [hpa, ht]
    | succ n =>
      have hn : n < t.length := by simpa using hi
      rw [List.getD_cons_succ, ih hst n hn]
      by_cases hpa : p a = true
      · simp [hpa]
      · have ht : t.countP p = 0 :=
          List.countP_eq_zero.mpr (fun b hb hpb => hpa (hp a b (ha b hb) hpb))
        simp [hpa, ht]

/-- Position characterisation of the left search bound on a sorted array. -/
theorem sorted_lt_iff_lt_left (l : List ℚ) (hs : l.Sorted (· ≤ ·)) (c : ℚ)
    (i : ℕ) (hi : i < l.length) :
    l.getD i 0 < c ↔ i < searchsorted_left l c := by
  have := sorted_getD_iff_lt_countP l hs (fun t => decide (t < c))
    (fun a b hab hb => by
      simp only [decide_eq_true_eq] at *
      exact lt_of_le_of_lt hab hb) i hi
  simpa [searchsorted_left] using this

/-- Position characterisation of the right search bound on a sorted array. -/
theorem sorted_le_iff_lt_right (l : List ℚ) (hs : l.Sorted (· ≤ ·)) (c : ℚ)
    (i : ℕ) (hi : i < l.length) :
    l.getD i 0 ≤ c ↔ i < searchsorted_right l c := by
  have := sorted_getD_iff_lt_countP l hs (fun t => decide (t ≤ c))
    (fun a b hab hb => by
      simp only [decide_eq_true_eq] at *
      exact le_trans hab hb) i hi
  simpa [searchsorted_right] using this

theorem cum_weight_zero (w : List ℚ) : cum_weight w 0 = 0 := by
  simp [cum_weight]

theorem cum_weight_cons_succ (a : ℚ) (w : List ℚ) (k : ℕ) :
    cum_weight (a :: w) (k + 1) = a + cum_weight w k := by
  simp [cum_weight, List.take_succ_cons]

/-- Refinement at the heart of `_get_is_core`: on a sorted array, the
difference of the prefix-sum array read at the two search bounds is exactly
the total weight over the closed value interval `[a, b]`. -/
theorem cum_diff_eq_interval_weight (ar : List ℚ) (hs : ar.Sorted (· ≤ ·))
    (w : List ℚ) (hlen : w.length = ar.length) (a b : ℚ) (hab : a ≤ b) :
    cum_weight w (searchsorted_right ar b) - cum_weight w (searchsorted_left ar a)
      = interval_weight (ar.zip w) a b := by
  induction ar generalizing w with
  | nil =>
    simp [searchsorted_left, searchsorted_right, cum_weight, interval_weight]
  | cons x t ih =>
    obtain ⟨wt, w', rfl⟩ : ∃ wt w', w = wt :: w' := by
      cases w with
      | nil => simp at hlen
      | cons wt w' => exact ⟨wt, w', rfl⟩
    rw [List.sorted_cons] at hs
    obtain ⟨hx, hst⟩ := hs
    have hlen' : w'.length = t.length := by simpa using hlen
    have ihd := ih hst w' hlen'
    simp only [searchsorted_left, searchsorted_right, List.countP_cons] at ihd ⊢
    simp only [interval_weight, List.zip_cons_cons, List.filter_cons] at ihd ⊢
    simp only [decide_eq_true_eq]
    by_cases h1 : x < a
    · have hxb : x ≤ b := le_of_lt (lt_of_lt_of_le h1 hab)
      have hno : ¬ (a ≤ x ∧ x ≤ b) := fun h => absurd h1 (not_lt.mpr h.1)
      rw [if_pos h1, if_pos hxb, if_neg hno]
      rw [cum_weight_cons_succ, cum_weight_cons_succ]
      rw [← ihd]
      ring
    · have hax : a ≤ x := not_lt.mp h1
      have hcl : t.countP (fun u => decide (u < a)) = 0 :=
        List.countP_eq_zero.mpr (fun y hy hya => by
          simp only [decide_eq_true_eq] at hya
          exact absurd (le_trans hax (hx y hy)) (not_le.mpr hya))
      by_cases h2 : x ≤ b
      · have hyes : a ≤ x ∧ x ≤ b := ⟨hax, h2⟩
        rw [if_neg h1, if_pos h2, if_pos hyes, hcl]
        rw [cum_weight_cons_succ, cum_weight_zero]
        rw [List.map_cons, List.sum_cons, ← ihd, hcl, cum_weight_zero]
        ring
      · have hbx : b < x := not_le.mp h2
        have hcr : t.countP (fun u => decide (u ≤ b)) = 0 :=
          List.countP_eq_zero.mpr (fun y hy hyb => by
            simp only [decide_eq_true_eq] at hyb
            exact absurd hyb (not_le.mpr (lt_of_lt_of_le hbx (hx y hy))))
        have hno : ¬ (a ≤ x ∧ x ≤ b) := fun h => absurd h.2 h2
        have hnil :
            (t.zip w').filter (fun p => decide (a ≤ p.1 ∧ p.1 ≤ b)) = [] := by
          rw [List.filter_eq_nil_iff]
          intro q hq
          have hmem := (List.of_mem_zip hq).1
          simp only [decide_eq_true_eq, not_and, not_le]
          intro _
          exact lt_of_lt_of_le hbx (hx q.1 hmem)
        rw [if_neg h1, if_neg h2, if_neg hno, hcl, hcr, hnil]
        simp [cum_weight_zero]

theorem getD_map {α β : Type} (f : α → β) (l : List α) (i : ℕ)
    (hi : i < l.length) (d : β) (e : α) :
    (l.map f).getD i d = f (l.getD i e) := by
  rw [List.getD_eq_getElem?_getD, List.getElem?_map, List.getElem?_eq_getElem hi,
    List.getD_eq_getElem l e hi]
  rfl

theorem getD_range (n i : ℕ) (hi : i < n) (d : ℕ) :
    (List.range n).getD i d = i := by
  rw [List.getD_eq_getElem?_getD, List.getElem?_range hi]
  rfl

/-- Reading `get_is_core` at an in-range position. -/
theorem get_is_core_getD (eps min_samples : ℚ) (ar w : List ℚ) (i : ℕ)
    (hi : i < ar.length) :
    (get_is_core eps min_samples ar w).getD i false =
      decide (min_samples ≤
        cum_weight w (searchsorted_right ar (ar.getD i 0 + eps)) -
        cum_weight w (searchsorted_left ar (ar.getD i 0 - eps))) :=
  getD_map _ ar i hi false 0

/-- Core classification as a function of the value alone: on a sorted array
with matching weights and `eps ≥ 0`, position `i` is flagged core iff the
total weight over the closed value interval `[v - eps, v + eps]` reaches
`min_samples`, where `v` is the value at `i`. -/
theorem is_core_iff_interval (eps min_samples : ℚ) (heps : 0 ≤ eps)
    (ar w : List ℚ) (hs : ar.Sorted (· ≤ ·)) (hlen : w.length = ar.length)
    (i : ℕ) (hi : i < ar.length) :
    (get_is_core eps min_samples ar w).getD i false = true ↔
      min_samples ≤
        interval_weight (ar.zip w) (ar.getD i 0 - eps) (ar.getD i 0 + eps) := by
  have hab : ar.getD i 0 - eps ≤ ar.getD i 0 + eps := by linarith
  rw [get_is_core_getD eps min_samples ar w i hi,
    cum_diff_eq_interval_weight ar hs w hlen _ _ hab]
  exact decide_eq_true_iff

theorem countP_take_succ {α : Type} (p : α → Bool) (l : List α) (i : ℕ)
    (hi : i < l.length) (d : α) :
    (l.take (i + 1)).countP p =
      (l.take i).countP p + (if p (l.getD i d) = true then 1 else 0) := by
  rw [List.take_succ, List.countP_append, List.getElem?_eq_getElem hi]
  simp [List.countP_cons, List.getD_eq_getElem l d hi, List.getElem?_eq_getElem hi]

theorem roll1_length (l : List ℚ) : (roll1 l).length = l.length := by
  unfold roll1
  match h : l.getLast? with
  | none => simp [List.getLast?_eq_none_iff.mp h]
  | some t =>
    have : l ≠ [] := by
      intro hnil
      rw [hnil] at h
      simp at h
    simp [List.length_dropLast, Nat.sub_add_cancel (List.length_pos.mpr this)]

theorem getD_zipWith {α β γ : Type} (f : α → β → γ) (as : List α) (bs : List β)
    (i : ℕ) (ha : i < as.length) (hb : i < bs.length) (d : γ) (da : α) (db : β) :
    (List.zipWith f as bs).getD i d = f (as.getD i da) (bs.getD i db) := by
  induction as generalizing bs i with
  | nil => simp at ha
  | cons a as ih =>
    cases bs with
    | nil => simp at hb
    | cons b bs =>
      cases i with
      | zero => rfl
      | succ n =>
        simp only [List.zipWith_cons_cons, List.getD_cons_succ]
        exact ih bs n (by simpa using ha) (by simpa using hb)

theorem roll1_getD_succ (l : List ℚ) (i : ℕ) (hi : i + 1 < l.length) (d : ℚ) :
    (roll1 l).getD (i + 1) d = l.getD i d := by
  unfold roll1
  match h : l.getLast? with
  | none =>
    rw [List.getLast?_eq_none_iff.mp h] at hi
    simp at hi
  | some t =>
    rw [List.getD_cons_succ]
    rw [List.getD_eq_getElem?_getD, List.getD_eq_getElem?_getD,
      List.getElem?_dropLast]
    have : i < l.length - 1 := by omega
    simp [this]

/-- The boolean gap-flag array `gt_eps` of `_assign_core_group_numbers`
after the first entry has been forced to `False`. -/
def gap_flags (eps : ℚ) (cores : List ℚ) : List Bool :=
  (List.zipWith (fun a b => decide (|a - b| > eps)) cores (roll1 cores)).set 0 false

theorem assign_eq_gap_flags (eps : ℚ) (cores : List ℚ) :
    assign_core_group_numbers eps cores =
      (List.range (gap_flags eps cores).length).map
        (fun i => (((gap_flags eps cores).take (i + 1)).countP id : ℤ)) := rfl

theorem gap_flags_length (eps : ℚ) (cores : List ℚ) :
    (gap_flags eps cores).length = cores.length := by
  simp [gap_flags, roll1_length]

theorem assign_length (eps : ℚ) (cores : List ℚ) :
    (assign_core_group_numbers eps cores).length = cores.length := by
  rw [assign_eq_gap_flags]
  simp [gap_flags_length]

theorem assign_getD (eps : ℚ) (cores : List ℚ) (i : ℕ) (hi : i < cores.length) :
    (assign_core_group_numbers eps cores).getD i 0 =
      (((gap_flags eps cores).take (i + 1)).countP id : ℤ) := by
  rw [assign_eq_gap_flags]
  have hi' : i < (List.range (gap_flags eps cores).length).length := by
    simpa [gap_flags_length] using hi
  rw [getD_map _ _ i hi' 0 0]
  rw [getD_range _ i (by simpa [gap_flags_length] using hi) 0]

theorem gap_flags_getD_zero (eps : ℚ) (cores : List ℚ) :
    (gap_flags eps cores).getD 0 false = false := by
  unfold gap_flags
  match List.zipWith (fun a b => decide (|a - b| > eps)) cores (roll1 cores) with
  | [] => rfl
  | t :: ts => rfl

theorem gap_flags_getD_succ (eps : ℚ) (cores : List ℚ) (i : ℕ)
    (hi : i + 1 < cores.length) :
    (gap_flags eps cores).getD (i + 1) false =
      decide (eps < |cores.getD (i + 1) 0 - cores.getD i 0|) := by
  unfold gap_flags
  rw [List.getD_eq_getElem?_getD, List.getElem?_set_ne (by omega),
    ← List.getD_eq_getElem?_getD]
  rw [getD_zipWith _ cores (roll1 cores) (i + 1) hi
    (by rw [roll1_length]; exact hi) false 0 0]
  rw [roll1_getD_succ cores i hi 0]

theorem assign_getD_zero (eps : ℚ) (cores : List ℚ) (h : cores ≠ []) :
    (assign_core_group_numbers eps cores).getD 0 0 = 0 := by
  have hl : 0 < cores.length := List.length_pos.mpr h
  rw [assign_getD eps cores 0 hl]
  rw [countP_take_succ id (gap_flags eps cores) 0 (by simpa [gap_flags_length]) false,
    gap_flags_getD_zero]
  simp

theorem assign_getD_succ (eps : ℚ) (cores : List ℚ) (i : ℕ)
    (hi : i + 1 < cores.length) :
    (assign_core_group_numbers eps cores).getD (i + 1) 0 =
      (assign_core_group_numbers eps cores).getD i 0 +
        (if eps < |cores.getD (i + 1) 0 - cores.getD i 0| then 1 else 0) := by
  rw [assign_getD eps cores (i + 1) hi, assign_getD eps cores i (by omega)]
  rw [countP_take_succ id (gap_flags eps cores) (i + 1)
    (by simpa [gap_flags_length]) false]
  rw [gap_flags_getD_succ eps cores i hi]
  by_cases h : eps < |cores.getD (i + 1) 0 - cores.getD i 0|
  · simp [h]
  · simp [h]

theorem sorted_getD_mono (l : List ℚ) (hs : l.Sorted (· ≤ ·)) (i j : ℕ)
    (hij : i ≤ j) (hj : j < l.length) :
    l.getD i 0 ≤ l.getD j 0 := by
  have hi : i < l.length := lt_of_le_of_lt hij hj
  rw [List.getD_eq_getElem l 0 hi, List.getD_eq_getElem l 0 hj]
  exact hs.rel_get_of_le (a := ⟨i, hi⟩) (b := ⟨j, hj⟩) hij

/-- Equal values in a sorted core list receive the same cluster id when
`eps ≥ 0`: all gaps between the two positions are zero, so no flag fires. -/
theorem assign_getD_eq_of_value_eq (eps : ℚ) (heps : 0 ≤ eps) (cores : List ℚ)
    (hs : cores.Sorted (· ≤ ·)) (i j : ℕ) (hij : i ≤ j) (hj : j < cores.length)
    (hval : cores.getD i 0 = cores.getD j 0) :
    (assign_core_group_numbers eps cores).getD i 0 =
      (assign_core_group_numbers eps cores).getD j 0 := by
  induction j with
  | zero =>
    have h0 : i = 0 := Nat.le_zero.mp hij
    rw [h0]
  | succ n ih =>
    rcases Nat.lt_or_ge i (n + 1) with hlt | hge
    · have hin : i ≤ n := by omega
      have h1 : cores.getD i 0 ≤ cores.getD n 0 :=
        sorted_getD_mono cores hs i n hin (by omega)
      have h2 : cores.getD n 0 ≤ cores.getD i 0 := by
        rw [hval]
        exact sorted_getD_mono cores hs n (n + 1) (by omega) hj
      have hvn : cores.getD i 0 = cores.getD n 0 := le_antisymm h1 h2
      have hgap : cores.getD (n + 1) 0 = cores.getD n 0 := by
        rw [← hval, hvn]
      have hflag : ¬ eps < |cores.getD (n + 1) 0 - cores.getD n 0| := by
        rw [hgap, sub_self, abs_zero]
        exact not_lt.mpr heps
      rw [assign_getD_succ eps cores n hj, if_neg hflag, add_zero]
      exact ih hin (by omega) hvn
    · have heq : i = n + 1 := by omega
      rw [heq]

theorem min_dist_single (x c : ℚ) : min_dist x [c] = |x - c| := rfl

theorem min_dist_cons (x c : ℚ) (cs : List ℚ) (h : cs ≠ []) :
    min_dist x (c :: cs) = min (|x - c|) (min_dist x cs) := by
  cases cs with
  | nil => exact absurd rfl h
  | cons c' cs' => rfl

theorem min_dist_le_getD (x : ℚ) (cs : List ℚ) (k : ℕ) (hk : k < cs.length) :
    min_dist x cs ≤ |x - cs.getD k 0| := by
  induction cs generalizing k with
  | nil => simp at hk
  | cons c cs ih =>
    by_cases hcs : cs = []
    · subst hcs
      cases k with
      | zero => simp [min_dist_single]
      | succ n => simp at hk
    · rw [min_dist_cons x c cs hcs]
      cases k with
      | zero =>
        rw [List.getD_cons_zero]
        exact min_le_left _ _
      | succ n =>
        rw [List.getD_cons_succ]
        exact le_trans (min_le_right _ _) (ih n (by simpa using hk))

theorem min_dist_attained (x : ℚ) (cs : List ℚ) (h : cs ≠ []) :
    ∃ k, k < cs.length ∧ min_dist x cs = |x - cs.getD k 0| := by
  induction cs with
  | nil => exact absurd rfl h
  | cons c cs ih =>
    by_cases hcs : cs = []
    · subst hcs
      exact ⟨0, by simp, by rw [min_dist_single, List.getD_cons_zero]⟩
    · rw [min_dist_cons x c cs hcs]
      rcases le_total (|x - c|) (min_dist x cs) with hle | hle
      · exact ⟨0, by simp, by rw [min_eq_left hle, List.getD_cons_zero]⟩
      · obtain ⟨k, hk, heq⟩ := ih hcs
        exact ⟨k + 1, by simpa using hk,
          by rw [min_eq_right hle, List.getD_cons_succ, heq]⟩

theorem searchsorted_left_le_length (l : List ℚ) (v : ℚ) :
    searchsorted_left l v ≤ l.length :=
  List.countP_le_length _

theorem bound_on_right_toNat (L r0 : ℕ) (hr : r0 ≤ L) (hL : 0 < L) :
    (bound_on L (r0 : ℤ)).toNat = min r0 (L - 1) := by
  simp only [bound_on]
  split_ifs <;> omega

theorem bound_on_left_toNat (L r0 : ℕ) (hr : r0 ≤ L) (hL : 0 < L) :
    (bound_on L ((r0 : ℤ) - 1)).toNat = r0 - 1 := by
  simp only [bound_on]
  split_ifs <;> omega

/-- The two clamped binary-search candidates of `_get_non_core_labels`
achieve the global minimum distance from `x` over all core values. -/
theorem candidates_min_eq_min_dist (cores : List ℚ) (hs : cores.Sorted (· ≤ ·))
    (hne : cores ≠ []) (x : ℚ) :
    min |cores.getD (bound_on cores.length
          ((searchsorted_left cores x : ℤ) - 1)).toNat 0 - x|
        |cores.getD (bound_on cores.length
          (searchsorted_left cores x : ℤ)).toNat 0 - x|
      = min_dist x cores := by
  have hL : 0 < cores.length := List.length_pos.mpr hne
  have hr : searchsorted_left cores x ≤ cores.length :=
    searchsorted_left_le_length cores x
  rw [bound_on_left_toNat cores.length _ hr hL,
    bound_on_right_toNat cores.length _ hr hL]
  set L := cores.length with hLdef
  set r0 := searchsorted_left cores x with hr0
  have hlt : ∀ m, m < L → (cores.getD m 0 < x ↔ m < r0) := fun m hm =>
    sorted_lt_iff_lt_left cores hs x m hm
  apply le_antisymm
  · -- every core value, in particular the attained one, dominates a candidate
    obtain ⟨k, hk, heq⟩ := min_dist_attained x cores hne
    rw [heq, abs_sub_comm x (cores.getD k 0)]
    rcases Nat.eq_zero_or_pos r0 with h0 | hpos
    · -- x at or below every core value: both candidates are position 0
      have hknot : ¬ cores.getD k 0 < x := fun hc => by
        have := (hlt k hk).mp hc
        omega
      have h0not : ¬ cores.getD 0 0 < x := fun hc => by
        have := (hlt 0 hL).mp hc
        omega
      push_neg at hknot h0not
      have hmono : cores.getD 0 0 ≤ cores.getD k 0 :=
        sorted_getD_mono cores hs 0 k (Nat.zero_le k) hk
      have hcand : |cores.getD (r0 - 1) 0 - x| ≤ |cores.getD k 0 - x| := by
        rw [h0]
        simp only [Nat.zero_sub]
        rw [abs_of_nonneg (by linarith), abs_of_nonneg (by linarith)]
        linarith
      exact le_trans (min_le_left _ _) hcand
    · rcases Nat.lt_or_ge k r0 with hkr | hkr
      · -- the left candidate r0 - 1 is at least as close as position k
        have hk1 : r0 - 1 < L := by omega
        have hklt : cores.getD k 0 < x := (hlt k hk).mpr hkr
        have hllt : cores.getD (r0 - 1) 0 < x := (hlt (r0 - 1) hk1).mpr (by omega)
        have hmono : cores.getD k 0 ≤ cores.getD (r0 - 1) 0 :=
          sorted_getD_mono cores hs k (r0 - 1) (by omega) hk1
        have hcand : |cores.getD (r0 - 1) 0 - x| ≤ |cores.getD k 0 - x| := by
          rw [abs_of_nonpos (by linarith), abs_of_nonpos (by linarith)]
          linarith
        exact le_trans (min_le_left _ _) hcand
      · -- the right candidate r0 is at least as close as position k
        have hrL : r0 < L := lt_of_le_of_lt hkr hk
        have hmin : min r0 (L - 1) = r0 := by omega
        have hrge : ¬ cores.getD r0 0 < x := fun hc => by
          have := (hlt r0 hrL).mp hc
          omega
        have hkge : ¬ cores.getD k 0 < x := fun hc => by
          have := (hlt k hk).mp hc
          omega
        have hmono : cores.getD r0 0 ≤ cores.getD k 0 :=
          sorted_getD_mono cores hs r0 k hkr hk
        push_neg at hrge hkge
        have hcand : |cores.getD (min r0 (L - 1)) 0 - x| ≤ |cores.getD k 0 - x| := by
          rw [hmin, abs_of_nonneg (by linarith), abs_of_nonneg (by linarith)]
          linarith
        exact le_trans (min_le_right _ _) hcand
  · -- the global minimum is below both candidates
    apply le_min
    · rw [abs_sub_comm]
      exact min_dist_le_getD x cores (r0 - 1) (by omega)
    · rw [abs_sub_comm]
      exact min_dist_le_getD x cores (min r0 (L - 1)) (by omega)

/-- Full characterisation of the label computed for one non-core value over
a nonempty sorted core list: noise beyond `eps`, otherwise the id of a core
point at the globally minimal distance, the left candidate winning ties. -/
theorem non_core_label_spec (eps : ℚ) (cores : List ℚ) (core_nums : List ℤ)
    (hs : cores.Sorted (· ≤ ·)) (hne : cores ≠ []) (x : ℚ) :
    (eps < min_dist x cores → non_core_label eps cores core_nums x = -1) ∧
    (min_dist x cores ≤ eps →
      ∃ j, j < cores.length ∧ |x - cores.getD j 0| = min_dist x cores ∧
        non_core_label eps cores core_nums x = core_nums.getD j 0) := by
  have hL : 0 < cores.length := List.length_pos.mpr hne
  have hr : searchsorted_left cores x ≤ cores.length :=
    searchsorted_left_le_length cores x
  have hmin := candidates_min_eq_min_dist cores hs hne x
  simp only [non_core_label]
  rw [if_neg (by omega)]
  rw [hmin]
  constructor
  · intro h
    rw [if_neg (not_le.mpr h)]
  · intro h
    rw [if_pos h]
    by_cases hd : |cores.getD (bound_on cores.length
          ((searchsorted_left cores x : ℤ) - 1)).toNat 0 - x| ≤
        |cores.getD (bound_on cores.length
          (searchsorted_left cores x : ℤ)).toNat 0 - x|
    · refine ⟨(bound_on cores.length
          ((searchsorted_left cores x : ℤ) - 1)).toNat, ?_, ?_, ?_⟩
      · rw [bound_on_left_toNat _ _ hr hL]
        omega
      · rw [abs_sub_comm, ← hmin, min_eq_left hd]
      · rw [if_pos hd]
    · refine ⟨(bound_on cores.length
          (searchsorted_left cores x : ℤ)).toNat, ?_, ?_, ?_⟩
      · rw [bound_on_right_toNat _ _ hr hL]
        omega
      · rw [abs_sub_comm, ← hmin, min_eq_right (le_of_not_le hd)]
      · rw [if_neg hd]

theorem argsort_perm_range {α : Type} [LinearOrder α] [Inhabited α] (l : List α) :
    (argsort l).Perm (List.range l.length) :=
  List.perm_insertionSort _ _

theorem argsort_length {α : Type} [LinearOrder α] [Inhabited α] (l : List α) :
    (argsort l).length = l.length := by
  rw [(argsort_perm_range l).length_eq, List.length_range]

theorem argsort_mem_lt {α : Type} [LinearOrder α] [Inhabited α] (l : List α)
    (k : ℕ) (hk : k ∈ argsort l) : k < l.length := by
  have := (argsort_perm_range l).mem_iff.mp hk
  simpa using this

theorem getD_mem {α : Type} (l : List α) (i : ℕ) (hi : i < l.length) (d : α) :
    l.getD i d ∈ l := by
  rw [List.getD_eq_getElem l d hi]
  exact List.getElem_mem hi

/-- The value list reordered by `argsort`: the sorted view of the array. -/
def sorted_of {α : Type} [LinearOrder α] [Inhabited α] (l : List α) : List α :=
  (argsort l).map (fun i => l.getD i default)

theorem map_getD_range {α : Type} (l : List α) (d : α) :
    (List.range l.length).map (fun i => l.getD i d) = l := by
  induction l with
  | nil => rfl
  | cons a t ih =>
    rw [List.length_cons, List.range_succ_eq_map, List.map_cons, List.map_map]
    have hcomp : ∀ i ∈ List.range t.length,
        ((fun i => (a :: t).getD i d) ∘ Nat.succ) i = t.getD i d := by
      intro i _
      simp [Function.comp, List.getD_cons_succ]
    rw [List.map_congr_left hcomp, ih, List.getD_cons_zero]

theorem sorted_of_perm {α : Type} [LinearOrder α] [Inhabited α] (l : List α) :
    (sorted_of l).Perm l := by
  have h := (argsort_perm_range l).map (fun i => l.getD i default)
  rw [map_getD_range] at h
  exact h

theorem sorted_of_sorted {α : Type} [LinearOrder α] [Inhabited α] (l : List α) :
    (sorted_of l).Sorted (· ≤ ·) := by
  unfold sorted_of argsort
  haveI : IsTotal ℕ (fun i j =>
      l.getD i default < l.getD j default ∨
        (l.getD i default = l.getD j default ∧ i ≤ j)) := ⟨fun a b => by
    rcases lt_trichotomy (l.getD a default) (l.getD b default) with h | h | h
    · exact Or.inl (Or.inl h)
    · rcases Nat.le_total a b with hab | hab
      · exact Or.inl (Or.inr ⟨h, hab⟩)
      · exact Or.inr (Or.inr ⟨h.symm, hab⟩)
    · exact Or.inr (Or.inl h)⟩
  haveI : IsTrans ℕ (fun i j =>
      l.getD i default < l.getD j default ∨
        (l.getD i default = l.getD j default ∧ i ≤ j)) := ⟨fun a b c hab hbc => by
    rcases hab with h1 | ⟨h1, h1'⟩ <;> rcases hbc with h2 | ⟨h2, h2'⟩
    · exact Or.inl (lt_trans h1 h2)
    · exact Or.inl (h2 ▸ h1)
    · exact Or.inl (h1 ▸ h2)
    · exact Or.inr ⟨h1.trans h2, h1'.trans h2'⟩⟩
  have hp := List.sorted_insertionSort (fun i j =>
      l.getD i default < l.getD j default ∨
        (l.getD i default = l.getD j default ∧ i ≤ j)) (List.range l.length)
  exact List.Pairwise.map _
    (fun a b hab => by
      rcases hab with h | ⟨h, _⟩
      · exact le_of_lt h
      · exact le_of_eq h) hp

theorem sorted_of_eq_of_perm {α : Type} [LinearOrder α] [Inhabited α]
    {l l' : List α} (h : l.Perm l') : sorted_of l = sorted_of l' :=
  List.eq_of_perm_of_sorted
    ((sorted_of_perm l).trans (h.trans (sorted_of_perm l').symm))
    (sorted_of_sorted l) (sorted_of_sorted l')

theorem sorted_of_range_perm {n : ℕ} (s : List ℕ) (h : s.Perm (List.range n)) :
    sorted_of s = List.range n :=
  List.eq_of_perm_of_sorted ((sorted_of_perm s).trans h)
    (sorted_of_sorted s) (List.sorted_le_range n)

theorem argsort_argsort_getD_lt {α : Type} [LinearOrder α] [Inhabited α]
    (l : List α) (i : ℕ) (hi : i < l.length) :
    (argsort (argsort l)).getD i 0 < l.length := by
  have h1 : i < (argsort (argsort l)).length := by
    rw [argsort_length, argsort_length]
    exact hi
  have h2 := getD_mem _ i h1 0
  have h3 := argsort_mem_lt (argsort l) _ h2
  rwa [argsort_length] at h3

/-- The double argsort (the `undo_sorted` idiom of `fit`) is the inverse of
the sorting permutation: reading the sorting permutation at `undo_sorted[i]`
gives back `i`. -/
theorem argsort_undo {α : Type} [LinearOrder α] [Inhabited α]
    (l : List α) (i : ℕ) (hi : i < l.length) :
    (argsort l).getD ((argsort (argsort l)).getD i 0) 0 = i := by
  have hs : (argsort l).Perm (List.range l.length) := argsort_perm_range l
  have h1 : sorted_of (argsort l) = List.range l.length :=
    sorted_of_range_perm (argsort l) hs
  have hlen : i < (argsort (argsort l)).length := by
    rw [argsort_length, argsort_length]
    exact hi
  have h2 : (sorted_of (argsort l)).getD i 0 =
      (argsort l).getD ((argsort (argsort l)).getD i 0) 0 := by
    unfold sorted_of
    exact getD_map _ _ i hlen 0 0
  rw [h1, getD_range l.length i hi 0] at h2
  exact h2.symm

theorem mask_select_map {α : Type} (q : α → Bool) (l : List α) :
    mask_select (l.map q) l = l.filter q := by
  induction l with
  | nil => rfl
  | cons a t ih =>
    simp only [mask_select, List.map_cons, List.zip_cons_cons, List.filter_cons]
    by_cases h : q a = true
    · simp only [h, if_true]
      rw [← ih]
      rfl
    · simp only [Bool.not_eq_true] at h
      simp only [h, if_false]
      rw [← ih]
      rfl

theorem merge_by_mask_getD (mask : List Bool) (cs ns : List ℤ)
    (hc : cs.length = mask.countP id) (hn : ns.length = mask.countP (fun b => !b))
    (j : ℕ) (hj : j < mask.length) :
    (merge_by_mask mask cs ns).getD j 0 =
      if mask.getD j false then cs.getD ((mask.take j).countP id) 0
      else ns.getD ((mask.take j).countP (fun b => !b)) 0 := by
  induction mask generalizing cs ns j with
  | nil => simp at hj
  | cons b m ih =>
    rw [List.countP_cons] at hc hn
    cases b with
    | true =>
      simp only [id, if_pos rfl] at hc
      simp only [Bool.not_true, Bool.false_eq_true, if_neg, if_false,
        Nat.add_zero] at hn
      obtain ⟨c, cs', rfl⟩ : ∃ c cs', cs = c :: cs' := by
        cases cs with
        | nil => simp at hc
        | cons c cs' => exact ⟨c, cs', rfl⟩
      cases j with
      | zero => rfl
      | succ j' =>
        have hj' : j' < m.length := by simpa using hj
        have hc' : cs'.length = m.countP id := by simpa using hc
        show (merge_by_mask m cs' ns).getD j' 0 = _
        rw [ih cs' ns hc' hn j' hj']
        simp only [List.getD_cons_succ, List.take_succ_cons, List.countP_cons,
          id, Bool.not_true]
        by_cases hb : m.getD j' false = true
        · simp [hb]
        · simp [hb]
    | false =>
      simp only [id, Bool.false_eq_true, if_neg, if_false, Nat.add_zero] at hc
      simp only [Bool.not_false, if_pos rfl] at hn
      obtain ⟨x, ns', rfl⟩ : ∃ x ns', ns = x :: ns' := by
        cases ns with
        | nil => simp at hn
        | cons x ns' => exact ⟨x, ns', rfl⟩
      cases j with
      | zero => rfl
      | succ j' =>
        have hj' : j' < m.length := by simpa using hj
        have hn' : ns'.length = m.countP (fun b => !b) := by simpa using hn
        show (merge_by_mask m cs ns').getD j' 0 = _
        rw [ih cs ns' hc hn' j' hj']
        simp only [List.getD_cons_succ, List.take_succ_cons, List.countP_cons,
          id, Bool.not_false]
        by_cases hb : m.getD j' false = true
        · simp [hb]
        · simp [hb]

theorem countP_take_lt {α : Type} (q : α → Bool) (l : List α) (j : ℕ)
    (hj : j < l.length) (d : α) (hq : q (l.getD j d) = true) :
    (l.take j).countP q < l.countP q := by
  have h1 : (l.take (j + 1)).countP q = (l.take j).countP q + 1 := by
    rw [countP_take_succ q l j hj d, if_pos hq]
  have h2 : (l.take (j + 1)).countP q ≤ l.countP q :=
    (List.take_sublist (j + 1) l).countP_le q
  omega

theorem filter_getD_rank {α : Type} (q : α → Bool) (l : List α) (j : ℕ)
    (hj : j < l.length) (d : α) (hq : q (l.getD j d) = true) :
    (l.filter q).getD ((l.take j).countP q) d = l.getD j d := by
  induction l generalizing j with
  | nil => simp at hj
  | cons a t ih =>
    cases j with
    | zero =>
      rw [List.getD_cons_zero] at hq ⊢
      rw [List.take_zero, List.countP_nil, List.filter_cons, if_pos hq,
        List.getD_cons_zero]
    | succ n =>
      rw [List.getD_cons_succ] at hq ⊢
      rw [List.take_succ_cons, List.countP_cons, List.filter_cons]
      by_cases ha : q a = true
      · rw [if_pos ha, if_pos ha, List.getD_cons_succ]
        exact ih n (by simpa using hj) hq
      · rw [if_neg ha, if_neg ha, Nat.add_zero]
        exact ih n (by simpa using hj) hq

theorem interval_weight_perm {p1 p2 : List (ℚ × ℚ)} (h : p1.Perm p2)
    (a b : ℚ) : interval_weight p1 a b = interval_weight p2 a b :=
  List.Perm.sum_eq ((h.filter _).map _)

theorem range_map_getD_zip (x w : List ℚ) (hw : x.length ≤ w.length) :
    (List.range x.length).map (fun i => (x.getD i 0, w.getD i 0)) = x.zip w := by
  induction x generalizing w with
  | nil => rfl
  | cons a t ih =>
    cases w with
    | nil => simp at hw
    | cons b u =>
      rw [List.length_cons, List.range_succ_eq_map, List.map_cons, List.map_map]
      have hcomp : ∀ i ∈ List.range t.length,
          ((fun i => ((a :: t).getD i 0, (b :: u).getD i 0)) ∘ Nat.succ) i
            = (fun i => (t.getD i 0, u.getD i 0)) i := by
        intro i _
        simp [Function.comp, List.getD_cons_succ]
      rw [List.map_congr_left hcomp, ih u (by simpa using hw)]
      rfl

theorem mapM_getElem_eq {α : Type} (idx : List ℕ) (w : List α) (d : α)
    (h : ∀ i ∈ idx, i < w.length) :
    idx.mapM (fun i => w[i]?) = some (idx.map (fun i => w.getD i d)) := by
  induction idx with
  | nil => rfl
  | cons i is ih =>
    have hi : i < w.length := h i (by simp)
    rw [List.mapM_cons, List.getElem?_eq_getElem hi,
      ih (fun j hj => h j (by simp [hj]))]
    simp [List.getD_eq_getElem?_getD, List.getElem?_eq_getElem hi]

theorem assign_getD_eq_of_value_eq' (eps : ℚ) (heps : 0 ≤ eps) (cores : List ℚ)
    (hs : cores.Sorted (· ≤ ·)) (i j : ℕ) (hi : i < cores.length)
    (hj : j < cores.length) (hval : cores.getD i 0 = cores.getD j 0) :
    (assign_core_group_numbers eps cores).getD i 0 =
      (assign_core_group_numbers eps cores).getD j 0 := by
  rcases le_total i j with h | h
  · exact assign_getD_eq_of_value_eq eps heps cores hs i j h hj hval
  · exact (assign_getD_eq_of_value_eq eps heps cores hs j i h hi hval.symm).symm

/-- Specification-side core test as a function of the value alone. -/
def is_core_value (eps min_samples : ℚ) (pairs : List (ℚ × ℚ)) (v : ℚ) : Bool :=
  decide (min_samples ≤ interval_weight pairs (v - eps) (v + eps))

/-- The sorted list of core values a fit on `(x, w)` produces. -/
def cores_of (eps min_samples : ℚ) (x w : List ℚ) : List ℚ :=
  (sorted_of x).filter (is_core_value eps min_samples (x.zip w))

/-- The label a fit on `(x, w)` attaches to any point of value `v`. -/
def label_of_value (eps min_samples : ℚ) (x w : List ℚ) (v : ℚ) : ℤ :=
  if is_core_value eps min_samples (x.zip w) v then
    (assign_core_group_numbers eps (cores_of eps min_samples x w)).getD
      ((cores_of eps min_samples x w).indexOf v) 0
  else
    non_core_label eps (cores_of eps min_samples x w)
      (assign_core_group_numbers eps (cores_of eps min_samples x w)) v

/-- The success path of `fit`, for a weight list long enough to index. -/
def fit_result (eps min_samples : ℚ) (x w : List ℚ) : FitResult :=
  let sorted_index := argsort x
  let ar_sorted := sorted_index.map (fun i => x.getD i 0)
  let sample_weight_sorted := sorted_index.map (fun i => w.getD i 0)
  let undo_sorted := argsort sorted_index
  let is_core := get_is_core eps min_samples ar_sorted sample_weight_sorted
  let cores := mask_select is_core ar_sorted
  let non_cores := mask_select (is_core.map (!·)) ar_sorted
  let core_nums := assign_core_group_numbers eps cores
  let non_core_nums := get_non_core_labels eps non_cores cores core_nums
  let group_nums := merge_by_mask is_core core_nums non_core_nums
  { labels := undo_sorted.map (fun j => group_nums.getD j 0),
    core_sample_indices := (List.range x.length).filter
      (fun i => (undo_sorted.map (fun j => is_core.getD j false)).getD i false) }

/-- With an admissible shape and weights at least as long as the data,
`fit` succeeds and returns the success-path result. -/
theorem fit_eq_ok (eps min_samples : ℚ) (x : List ℚ) (shape : List ℕ)
    (w : List ℚ) (hso : shape_ok shape = true) (hwl : x.length ≤ w.length) :
    fit eps min_samples ⟨x, shape, some w⟩ = .ok (fit_result eps min_samples x w) := by
  unfold fit
  rw [if_neg (by simp [hso])]
  have hm := mapM_getElem_eq (argsort x) w 0
    (fun i hi => lt_of_lt_of_le (argsort_mem_lt x i hi) hwl)
  simp only [Option.getD_some]
  rw [hm]
  rfl

/-- Omitted weights are the all-ones weight vector. -/
theorem fit_none_eq (eps min_samples : ℚ) (x : List ℚ) (shape : List ℕ) :
    fit eps min_samples ⟨x, shape, none⟩ =
      fit eps min_samples ⟨x, shape, some (x.map (fun _ => 1))⟩ := rfl

/-- The merged label array of `fit`, read at sorted position `j`, depends
only on the value at `j`: the id of its (first) occurrence among the cores
when it is core, the non-core assignment otherwise. -/
theorem merged_getD (eps : ℚ) (heps : 0 ≤ eps) (A : List ℚ)
    (hAs : A.Sorted (· ≤ ·)) (q : ℚ → Bool) (j : ℕ) (hj : j < A.length) :
    (merge_by_mask (A.map q) (assign_core_group_numbers eps (A.filter q))
        (get_non_core_labels eps (A.filter (fun v => ! q v)) (A.filter q)
          (assign_core_group_numbers eps (A.filter q)))).getD j 0 =
      (if q (A.getD j 0) then
        (assign_core_group_numbers eps (A.filter q)).getD
          ((A.filter q).indexOf (A.getD j 0)) 0
      else
        non_core_label eps (A.filter q)
          (assign_core_group_numbers eps (A.filter q)) (A.getD j 0)) := by
  have hfl : (A.filter q).length = A.countP q :=
    (List.countP_eq_length_filter q A).symm
  have hfl' : (A.filter (fun v => ! q v)).length = A.countP (fun v => ! q v) :=
    (List.countP_eq_length_filter _ A).symm
  have hc : (assign_core_group_numbers eps (A.filter q)).length =
      (A.map q).countP id := by
    rw [assign_length, hfl, List.countP_map]
    rfl
  have hn : (get_non_core_labels eps (A.filter (fun v => ! q v)) (A.filter q)
      (assign_core_group_numbers eps (A.filter q))).length =
      (A.map q).countP (fun b => !b) := by
    unfold get_non_core_labels
    rw [List.length_map, hfl', List.countP_map]
    rfl
  rw [merge_by_mask_getD (A.map q) _ _ hc hn j (by simpa using hj)]
  have hmask : (A.map q).getD j false = q (A.getD j 0) := getD_map q A j hj false 0
  have htk : ((A.map q).take j).countP id = (A.take j).countP q := by
    rw [← List.map_take, List.countP_map]
    rfl
  have htk' : ((A.map q).take j).countP (fun b => !b) =
      (A.take j).countP (fun v => ! q v) := by
    rw [← List.map_take, List.countP_map]
    rfl
  rw [hmask, htk, htk']
  by_cases hq : q (A.getD j 0) = true
  · rw [if_pos hq, if_pos hq]
    have hrank : (A.take j).countP q < (A.filter q).length := by
      rw [hfl]
      exact countP_take_lt q A j hj 0 hq
    have hvrank : (A.filter q).getD ((A.take j).countP q) 0 = A.getD j 0 :=
      filter_getD_rank q A j hj 0 hq
    have hmem : A.getD j 0 ∈ A.filter q :=
      List.mem_filter.mpr ⟨getD_mem A j hj 0, hq⟩
    have hidx : (A.filter q).indexOf (A.getD j 0) < (A.filter q).length :=
      List.indexOf_lt_length.mpr hmem
    have hvidx : (A.filter q).getD ((A.filter q).indexOf (A.getD j 0)) 0 =
        A.getD j 0 := by
      rw [List.getD_eq_getElem _ 0 hidx]
      exact List.getElem_indexOf hidx
    exact assign_getD_eq_of_value_eq' eps heps (A.filter q) (hAs.filter q)
      _ _ hrank hidx (hvrank.trans hvidx.symm)
  · rw [if_neg hq, if_neg hq]
    have hq' : (fun v => ! q v) (A.getD j 0) = true := by
      simp only [Bool.not_eq_true] at hq
      simp only [hq, Bool.not_false]
    have hrank : (A.take j).countP (fun v => ! q v) <
        (A.filter (fun v => ! q v)).length := by
      rw [hfl']
      exact countP_take_lt _ A j hj 0 hq'
    have hvrank : (A.filter (fun v => ! q v)).getD
        ((A.take j).countP (fun v => ! q v)) 0 = A.getD j 0 :=
      filter_getD_rank _ A j hj 0 hq'
    unfold get_non_core_labels
    rw [getD_map _ _ _ hrank 0 0, hvrank]

/-- Pointwise description of a successful fit: every label is a function of
the point's value through `label_of_value`, and the recorded core indices
are exactly the original positions whose value passes the core test. -/
theorem fit_result_spec (eps min_samples : ℚ) (heps : 0 ≤ eps)
    (x w : List ℚ) (hwl : x.length ≤ w.length) :
    (∀ i, i < x.length →
      (fit_result eps min_samples x w).labels.getD i 0 =
        label_of_value eps min_samples x w (x.getD i 0)) ∧
    (fit_result eps min_samples x w).core_sample_indices =
      (List.range x.length).filter
        (fun i => is_core_value eps min_samples (x.zip w) (x.getD i 0)) := by
  have hslen : (argsort x).length = x.length := argsort_length x
  have hars : (argsort x).map (fun i => x.getD i 0) = sorted_of x := by
    unfold sorted_of
    exact List.map_congr_left (fun k hk => by
      have hklt := argsort_mem_lt x k hk
      rw [List.getD_eq_getElem x 0 hklt, List.getD_eq_getElem x default hklt])
  have hAlen : (sorted_of x).length = x.length := (sorted_of_perm x).length_eq
  have hAsorted : (sorted_of x).Sorted (· ≤ ·) := sorted_of_sorted x
  have hWlen : ((argsort x).map (fun i => w.getD i 0)).length = x.length := by
    rw [List.length_map, hslen]
  have hzip : ((sorted_of x).zip
      ((argsort x).map (fun i => w.getD i 0))).Perm (x.zip w) := by
    rw [← hars, List.zip_map']
    have h1 := (argsort_perm_range x).map (fun i => (x.getD i 0, w.getD i 0))
    rw [range_map_getD_zip x w hwl] at h1
    exact h1
  have hisv : get_is_core eps min_samples (sorted_of x)
      ((argsort x).map (fun i => w.getD i 0)) =
      (sorted_of x).map (is_core_value eps min_samples (x.zip w)) := by
    unfold get_is_core
    refine List.map_congr_left (fun v _ => ?_)
    rw [cum_diff_eq_interval_weight (sorted_of x) hAsorted _
      (by rw [hWlen, hAlen]) (v - eps) (v + eps) (by linarith)]
    rw [interval_weight_perm hzip]
    rfl
  have hulen : (argsort (argsort x)).length = x.length := by
    rw [argsort_length, hslen]
  simp only [fit_result]
  rw [hars, hisv]
  simp only [List.map_map, Function.comp_def, mask_select_map]
  constructor
  · intro i hi
    rw [getD_map _ _ i (by rw [hulen]; exact hi) 0 0]
    have hj0 : (argsort (argsort x)).getD i 0 < (sorted_of x).length := by
      rw [hAlen]
      exact argsort_argsort_getD_lt x i hi
    rw [merged_getD eps heps (sorted_of x) hAsorted _ _ hj0]
    have hval : (sorted_of x).getD ((argsort (argsort x)).getD i 0) 0 =
        x.getD i 0 := by
      rw [← hars, getD_map _ _ _ (by rw [hslen, ← hAlen]; exact hj0) 0 0,
        argsort_undo x i hi]
    rw [hval]
    rfl
  · apply List.filter_congr
    intro i hi
    have hin : i < x.length := List.mem_range.mp hi
    rw [getD_map _ _ i (by rw [hulen]; exact hin) false 0]
    have hj0 : (argsort (argsort x)).getD i 0 < (sorted_of x).length := by
      rw [hAlen]
      exact argsort_argsort_getD_lt x i hin
    rw [getD_map _ _ _ hj0 false 0]
    have hval : (sorted_of x).getD ((argsort (argsort x)).getD i 0) 0 =
        x.getD i 0 := by
      rw [← hars, getD_map _ _ _ (by rw [hslen, ← hAlen]; exact hj0) 0 0,
        argsort_undo x i hin]
    rw [hval]

theorem is_core_value_perm (eps min_samples : ℚ) {pr pr' : List (ℚ × ℚ)}
    (h : pr.Perm pr') (v : ℚ) :
    is_core_value eps min_samples pr v = is_core_value eps min_samples pr' v := by
  unfold is_core_value
  rw [interval_weight_perm h]

/-- The value-to-label function depends only on the multiset of
(value, weight) pairs of the input. -/
theorem label_of_value_perm (eps min_samples : ℚ) (x w x' w' : List ℚ)
    (hw : w.length = x.length) (hw' : w'.length = x'.length)
    (hperm : (x.zip w).Perm (x'.zip w')) (v : ℚ) :
    label_of_value eps min_samples x w v =
      label_of_value eps min_samples x' w' v := by
  have hx : x.Perm x' := by
    have h1 : (x.zip w).map Prod.fst = x :=
      List.map_fst_zip x w (le_of_eq hw.symm)
    have h2 : (x'.zip w').map Prod.fst = x' :=
      List.map_fst_zip x' w' (le_of_eq hw'.symm)
    rw [← h1, ← h2]
    exact hperm.map Prod.fst
  have hsort : sorted_of x = sorted_of x' := sorted_of_eq_of_perm hx
  have hicv : is_core_value eps min_samples (x.zip w) =
      is_core_value eps min_samples (x'.zip w') := by
    funext u
    exact is_core_value_perm eps min_samples hperm u
  unfold label_of_value cores_of
  rw [hsort, hicv]

/-- C1: after sorting by value, the point at sorted position `i` with value
`v` is classified core iff the total weight of the points whose values lie
in the closed interval `[v - eps, v + eps]` reaches `min_samples`
(inclusive `≥`).  The interval contains `v` itself, so the point's own
weight is always in the sum, and with `eps = 0` it degenerates to the
exactly-equal values.  `eps ≥ 0` is the constructor contract (`eps` is a
positive real in the spec). -/
theorem claim_C1 (eps min_samples : ℚ) (heps : 0 ≤ eps) (ar w : List ℚ)
    (hs : ar.Sorted (· ≤ ·)) (hlen : w.length = ar.length)
    (i : ℕ) (hi : i < ar.length) :
    (get_is_core eps min_samples ar w).getD i false = true ↔
      min_samples ≤ interval_weight (ar.zip w)
        (ar.getD i 0 - eps) (ar.getD i 0 + eps) :=
  is_core_iff_interval eps min_samples heps ar w hs hlen i hi

theorem claim_C1_witness :
    (get_is_core 1 2 [0, 1, 5] [1, 1, 1]).getD 0 false = true ↔
      (2 : ℚ) ≤ interval_weight ([(0 : ℚ), 1, 5].zip [1, 1, 1])
        ([(0 : ℚ), 1, 5].getD 0 0 - 1) ([(0 : ℚ), 1, 5].getD 0 0 + 1) :=
  claim_C1 1 2 (by norm_num) [0, 1, 5] [1, 1, 1] (by decide) (by decide) 0
    (by decide)

/-- C2: the ids assigned to the core points in ascending value order form a
contiguous sequence: empty with no cores, the first id is always 0, and the
id increments by exactly 1 precisely when the gap to the immediately
preceding core point strictly exceeds `eps`. -/
theorem claim_C2 (eps : ℚ) (cores : List ℚ) :
    assign_core_group_numbers eps [] = [] ∧
    (assign_core_group_numbers eps cores).length = cores.length ∧
    (cores ≠ [] → (assign_core_group_numbers eps cores).getD 0 0 = 0) ∧
    (∀ i, i + 1 < cores.length →
      (assign_core_group_numbers eps cores).getD (i + 1) 0 =
        (assign_core_group_numbers eps cores).getD i 0 +
          (if eps < |cores.getD (i + 1) 0 - cores.getD i 0| then 1 else 0)) :=
  ⟨rfl, assign_length eps cores, assign_getD_zero eps cores,
    fun i hi => assign_getD_succ eps cores i hi⟩

theorem claim_C2_witness :
    (assign_core_group_numbers 1 [(0 : ℚ), 1, 5]).getD 0 0 = 0 ∧
    (assign_core_group_numbers 1 [(0 : ℚ), 1, 5]).getD 1 0 =
      (assign_core_group_numbers 1 [(0 : ℚ), 1, 5]).getD 0 0 +
        (if (1 : ℚ) < |[(0 : ℚ), 1, 5].getD 1 0 - [(0 : ℚ), 1, 5].getD 0 0|
          then 1 else 0) :=
  ⟨(claim_C2 1 [(0 : ℚ), 1, 5]).2.2.1 (by decide),
   (claim_C2 1 [(0 : ℚ), 1, 5]).2.2.2 0 (by decide)⟩

/-- C3: a non-core value `x` is labeled −1 when there are no core points;
otherwise, with `d` the minimum of `|x − c|` over all core values `c`, it
receives the id of a core point at distance exactly `d` when `d ≤ eps`
(the left of the two clamped binary-search candidates winning ties) and is
labeled −1 when `d > eps`; with exactly one core point both candidates
clamp to that single position. -/
theorem claim_C3 (eps : ℚ) (non_cores cores : List ℚ) (core_nums : List ℤ)
    (hs : cores.Sorted (· ≤ ·)) (k : ℕ) (hk : k < non_cores.length) :
    (cores = [] →
      (get_non_core_labels eps non_cores cores core_nums).getD k (-1) = -1) ∧
    (cores ≠ [] →
      (eps < min_dist (non_cores.getD k 0) cores →
        (get_non_core_labels eps non_cores cores core_nums).getD k (-1) = -1) ∧
      (min_dist (non_cores.getD k 0) cores ≤ eps →
        ∃ j, j < cores.length ∧
          |non_cores.getD k 0 - cores.getD j 0| =
            min_dist (non_cores.getD k 0) cores ∧
          (get_non_core_labels eps non_cores cores core_nums).getD k (-1) =
            core_nums.getD j 0) ∧
      (|cores.getD (bound_on cores.length
            ((searchsorted_left cores (non_cores.getD k 0) : ℤ) - 1)).toNat 0 -
          non_cores.getD k 0| ≤
        |cores.getD (bound_on cores.length
            (searchsorted_left cores (non_cores.getD k 0) : ℤ)).toNat 0 -
          non_cores.getD k 0| →
        min_dist (non_cores.getD k 0) cores ≤ eps →
        (get_non_core_labels eps non_cores cores core_nums).getD k (-1) =
          core_nums.getD (bound_on cores.length
            ((searchsorted_left cores (non_cores.getD k 0) : ℤ) - 1)).toNat 0) ∧
      (cores.length = 1 →
        (bound_on cores.length
          ((searchsorted_left cores (non_cores.getD k 0) : ℤ) - 1)).toNat = 0 ∧
        (bound_on cores.length
          (searchsorted_left cores (non_cores.getD k 0) : ℤ)).toNat = 0)) := by
  have hget : (get_non_core_labels eps non_cores cores core_nums).getD k (-1) =
      non_core_label eps cores core_nums (non_cores.getD k 0) :=
    getD_map _ non_cores k hk (-1) 0
  constructor
  · intro hnil
    rw [hget]
    unfold non_core_label
    rw [if_pos (by rw [hnil]; rfl)]
  · intro hne
    obtain ⟨hfar, hnear⟩ :=
      non_core_label_spec eps cores core_nums hs hne (non_cores.getD k 0)
    refine ⟨fun h => by rw [hget]; exact hfar h, fun h => ?_,
      fun hdle h => ?_, fun h1 => ?_⟩
    · obtain ⟨j, hj1, hj2, hj3⟩ := hnear h
      exact ⟨j, hj1, hj2, by rw [hget]; exact hj3⟩
    · rw [hget]
      have hL : 0 < cores.length := List.length_pos.mpr hne
      have hmin := candidates_min_eq_min_dist cores hs hne (non_cores.getD k 0)
      simp only [non_core_label]
      rw [if_neg (by omega), hmin, if_pos h, if_pos hdle]
    · have hr : searchsorted_left cores (non_cores.getD k 0) ≤ cores.length :=
        searchsorted_left_le_length cores (non_cores.getD k 0)
      rw [bound_on_left_toNat _ _ hr (by omega),
        bound_on_right_toNat _ _ hr (by omega), h1]
      rw [h1] at hr
      omega

theorem claim_C3_witness :
    (get_non_core_labels 1 [3] [(0 : ℚ), 10] [0, 1]).getD 0 (-1) = -1 :=
  ((claim_C3 1 [3] [(0 : ℚ), 10] [0, 1] (by decide) 0 (by decide)).2
    (by decide)).1 (by norm_num [min_dist])

theorem mapM_getElem_none {α : Type} (idx : List ℕ) (w : List α) (i : ℕ)
    (hi : i ∈ idx) (hlen : w.length ≤ i) :
    idx.mapM (fun j => w[j]?) = none := by
  induction idx with
  | nil => simp at hi
  | cons a is ih =>
    rw [List.mapM_cons]
    rcases List.mem_cons.mp hi with rfl | hmem
    · rw [List.getElem?_eq_none hlen]
      rfl
    · rw [ih hmem]
      cases h : w[a]? <;> simp [h]

/-- C4 counterexample: the shape `(2, 3, 1)` is neither flat nor `n×1`, yet
`fit` accepts it, because the source only tests `X.shape[-1] == 1`. -/
theorem claim_C4_counterexample :
    fit_succeeds 1 5 ⟨[1, 2, 3, 4, 5, 6], [2, 3, 1], none⟩ = true ∧
    ¬ (([2, 3, 1] : List ℕ).length = 1 ∨ ∃ n, ([2, 3, 1] : List ℕ) = [n, 1]) := by
  constructor
  · rfl
  · rintro (h | ⟨n, h⟩)
    · simp at h
    · simp at h

/-- C4 (amended): `fit` fails with the shape error exactly when the shape
is not one-dimensional and its last axis does not have extent 1; every flat
or `n×1` input is accepted, but so is any higher-dimensional array whose
last axis has extent 1, and the check precedes all clustering work. -/
theorem claim_C4_amended (eps min_samples : ℚ) (x : List ℚ) (shape : List ℕ) :
    (shape_ok shape = true ↔
      shape.length = 1 ∨ shape.getLast? = some 1) ∧
    (shape_ok shape = false →
      fit eps min_samples ⟨x, shape, none⟩ = .error "X must be 1d array") ∧
    (shape_ok shape = true →
      ∃ r, fit eps min_samples ⟨x, shape, none⟩ = .ok r) := by
  refine ⟨?_, ?_, ?_⟩
  · cases hl : shape.getLast? with
    | none => simp [shape_ok, hl]
    | some t => simp [shape_ok, hl]
  · intro h
    unfold fit
    rw [if_pos (by simp [h])]
  · intro h
    rw [fit_none_eq eps min_samples x shape]
    exact ⟨_, fit_eq_ok eps min_samples x shape _ h (by rw [List.length_map])⟩

theorem claim_C4_amended_witness :
    (shape_ok [4] = true ↔
      ([4] : List ℕ).length = 1 ∨ ([4] : List ℕ).getLast? = some 1) ∧
    fit 1 2 ⟨[5, 6], [2, 7], none⟩ = .error "X must be 1d array" :=
  ⟨(claim_C4_amended 1 2 [] [4]).1,
   (claim_C4_amended 1 2 [5, 6] [2, 7]).2.1 (by decide)⟩

/-- C5 counterexample: a weight list longer than `X` does not raise: `fit`
succeeds, silently ignoring the extra entries. -/
theorem claim_C5_counterexample :
    fit_succeeds 1 5 ⟨[0], [1], some [1, 7]⟩ = true ∧
    ([1, 7] : List ℚ).length ≠ ([0] : List ℚ).length := by
  constructor
  · rfl
  · decide

/-- C5 (amended): no explicit weight-length validation exists.  Weights
shorter than `X` make `fit` fail with an out-of-bounds indexing error while
reordering the weights; weights longer than `X` are silently truncated: the
call behaves exactly as with the first `len(X)` weights. -/
theorem claim_C5_amended (eps min_samples : ℚ) (x w : List ℚ)
    (shape : List ℕ) (hs : shape_ok shape = true) :
    (w.length < x.length →
      fit eps min_samples ⟨x, shape, some w⟩ = .error "index out of bounds") ∧
    (x.length ≤ w.length →
      fit eps min_samples ⟨x, shape, some w⟩ =
        fit eps min_samples ⟨x, shape, some (w.take x.length)⟩) := by
  constructor
  · intro hlt
    unfold fit
    rw [if_neg (by simp [hs])]
    simp only [Option.getD_some]
    have hmem : x.length - 1 ∈ argsort x := by
      have : x.length - 1 ∈ List.range x.length := List.mem_range.mpr (by omega)
      exact (argsort_perm_range x).mem_iff.mpr this
    rw [mapM_getElem_none (argsort x) w (x.length - 1) hmem (by omega)]
  · intro hle
    rw [fit_eq_ok eps min_samples x shape w hs hle,
      fit_eq_ok eps min_samples x shape (w.take x.length) hs
        (by rw [List.length_take]; omega)]
    have hmap : (argsort x).map (fun i => (w.take x.length).getD i 0) =
        (argsort x).map (fun i => w.getD i 0) := by
      refine List.map_congr_left (fun k hk => ?_)
      have hklt := argsort_mem_lt x k hk
      rw [List.getD_eq_getElem?_getD, List.getD_eq_getElem?_getD,
        List.getElem?_take]
      rw [if_pos hklt]
    simp only [fit_result]
    rw [hmap]

theorem claim_C5_amended_witness :
    fit 1 2 ⟨[0, 5], [2], some [1]⟩ = .error "index out of bounds" ∧
    fit 1 2 ⟨[0], [1], some [1, 7]⟩ =
      fit 1 2 ⟨[0], [1], some (([1, 7] : List ℚ).take 1)⟩ :=
  ⟨(claim_C5_amended 1 2 [0, 5] [1] [2] (by decide)).1 (by decide),
   (claim_C5_amended 1 2 [0] [1, 7] [1] (by decide)).2 (by decide)⟩

/-- C6: whenever `fit` fails, the stored `labels_` and
`core_sample_indices_` are exactly what they were before the call; the
source assigns them only in the final lines of `fit`, after every failure
point. -/
theorem claim_C6 (m : DBSCAN1D) (inp : FitInput) (e : String)
    (h : fit m.eps m.min_samples inp = .error e) :
    (fit_update m inp).labels_ = m.labels_ ∧
    (fit_update m inp).core_sample_indices_ = m.core_sample_indices_ := by
  unfold fit_update
  rw [h]
  exact ⟨rfl, rfl⟩

theorem claim_C6_witness :
    (fit_update ⟨1, 2, some [7], some [0]⟩ ⟨[1, 2], [2, 2], none⟩).labels_ =
      some [7] ∧
    (fit_update ⟨1, 2, some [7], some [0]⟩
      ⟨[1, 2], [2, 2], none⟩).core_sample_indices_ = some [0] :=
  claim_C6 ⟨1, 2, some [7], some [0]⟩ ⟨[1, 2], [2, 2], none⟩
    "X must be 1d array" (by rfl)

/-- C7: permuting the input (values and weights together) and un-permuting
the output labels yields the same clustering; the core index set corresponds
under the permutation.  Holds for the constructor-contract range `eps ≥ 0`,
duplicates included. -/
theorem claim_C7 (eps min_samples : ℚ) (x w : List ℚ) (p : List ℕ)
    (shape shape' : List ℕ) (heps : 0 ≤ eps) (hw : w.length = x.length)
    (hp : p.Perm (List.range x.length)) (hs : shape_ok shape = true)
    (hs' : shape_ok shape' = true) :
    ∃ r r',
      fit eps min_samples ⟨x, shape, some w⟩ = .ok r ∧
      fit eps min_samples ⟨p.map (fun i => x.getD i 0), shape',
        some (p.map (fun i => w.getD i 0))⟩ = .ok r' ∧
      (∀ j, j < x.length → r'.labels.getD j 0 = r.labels.getD (p.getD j 0) 0) ∧
      (∀ j, j < x.length →
        (p.getD j 0 ∈ r.core_sample_indices ↔ j ∈ r'.core_sample_indices)) := by
  have hplen : p.length = x.length := by rw [hp.length_eq, List.length_range]
  have hx'len : (p.map (fun i => x.getD i 0)).length = x.length := by
    rw [List.length_map, hplen]
  have hw'len : (p.map (fun i => w.getD i 0)).length = x.length := by
    rw [List.length_map, hplen]
  have hwl : x.length ≤ w.length := le_of_eq hw.symm
  have hzip' : ((p.map (fun i => x.getD i 0)).zip
      (p.map (fun i => w.getD i 0))).Perm (x.zip w) := by
    rw [List.zip_map']
    have h1 := hp.map (fun i => (x.getD i 0, w.getD i 0))
    rw [range_map_getD_zip x w hwl] at h1
    exact h1
  refine ⟨fit_result eps min_samples x w,
    fit_result eps min_samples (p.map (fun i => x.getD i 0))
      (p.map (fun i => w.getD i 0)),
    fit_eq_ok eps min_samples x shape w hs hwl,
    fit_eq_ok eps min_samples _ shape' _ hs' (by rw [hx'len, hw'len]), ?_, ?_⟩
  · intro j hj
    obtain ⟨hlab, -⟩ := fit_result_spec eps min_samples heps x w hwl
    obtain ⟨hlab', -⟩ := fit_result_spec eps min_samples heps
      (p.map (fun i => x.getD i 0)) (p.map (fun i => w.getD i 0))
      (by rw [hx'len, hw'len])
    have hpj : p.getD j 0 < x.length := by
      have hmem : p.getD j 0 ∈ p := getD_mem p j (by rw [hplen]; exact hj) 0
      exact List.mem_range.mp (hp.mem_iff.mp hmem)
    have hxv : (p.map (fun i => x.getD i 0)).getD j 0 = x.getD (p.getD j 0) 0 :=
      getD_map _ p j (by rw [hplen]; exact hj) 0 0
    rw [hlab' j (by rw [hx'len]; exact hj), hlab (p.getD j 0) hpj, hxv]
    exact label_of_value_perm eps min_samples _ _ x w
      (by rw [hw'len, hx'len]) hw hzip' (x.getD (p.getD j 0) 0)
  · intro j hj
    obtain ⟨-, hcore⟩ := fit_result_spec eps min_samples heps x w hwl
    obtain ⟨-, hcore'⟩ := fit_result_spec eps min_samples heps
      (p.map (fun i => x.getD i 0)) (p.map (fun i => w.getD i 0))
      (by rw [hx'len, hw'len])
    have hpj : p.getD j 0 < x.length := by
      have hmem : p.getD j 0 ∈ p := getD_mem p j (by rw [hplen]; exact hj) 0
      exact List.mem_range.mp (hp.mem_iff.mp hmem)
    have hxv : (p.map (fun i => x.getD i 0)).getD j 0 = x.getD (p.getD j 0) 0 :=
      getD_map _ p j (by rw [hplen]; exact hj) 0 0
    rw [hcore, hcore']
    simp only [List.mem_filter, List.mem_range]
    constructor
    · rintro ⟨-, h2⟩
      refine ⟨by rw [hx'len]; exact hj, ?_⟩
      rw [is_core_value_perm eps min_samples hzip', hxv]
      exact h2
    · rintro ⟨-, h2⟩
      rw [is_core_value_perm eps min_samples hzip', hxv] at h2
      exact ⟨hpj, h2⟩

theorem claim_C7_witness :
    ∃ r r',
      fit 1 2 ⟨[0, 5], [2], some [1, 1]⟩ = .ok r ∧
      fit 1 2 ⟨[1, 0].map (fun i => [(0 : ℚ), 5].getD i 0), [2],
        some ([1, 0].map (fun i => [(1 : ℚ), 1].getD i 0))⟩ = .ok r' ∧
      (∀ j, j < ([(0 : ℚ), 5] : List ℚ).length →
        r'.labels.getD j 0 = r.labels.getD ([1, 0].getD j 0) 0) ∧
      (∀ j, j < ([(0 : ℚ), 5] : List ℚ).length →
        (([1, 0] : List ℕ).getD j 0 ∈ r.core_sample_indices ↔
          j ∈ r'.core_sample_indices)) :=
  claim_C7 1 2 [0, 5] [1, 1] [1, 0] [2] [2] (by norm_num) (by decide)
    (by decide) (by decide) (by decide)

/-- C8: the weighted scenario X = [0, 1, 2], weights = [5, 5, 5], eps = 1,
min_samples = 6: the middle point's neighborhood weight is 15, each
endpoint's is 10, all three points are core, the core indices are
[0, 1, 2] and all labels are 0. -/
theorem claim_C8 :
    fit 1 6 ⟨[0, 1, 2], [3], some [5, 5, 5]⟩ =
      .ok ⟨[0, 0, 0], [0, 1, 2]⟩ ∧
    get_is_core 1 6 [0, 1, 2] [5, 5, 5] = [true, true, true] ∧
    interval_weight ([(0 : ℚ), 1, 2].zip [5, 5, 5]) (1 - 1) (1 + 1) = 15 ∧
    interval_weight ([(0 : ℚ), 1, 2].zip [5, 5, 5]) (0 - 1) (0 + 1) = 10 ∧
    interval_weight ([(0 : ℚ), 1, 2].zip [5, 5, 5]) (2 - 1) (2 + 1) = 10 := by
  refine ⟨?_, ?_, ?_, ?_, ?_⟩ <;> with_unfolding_all rfl

/-- C9: any two input positions holding equal values receive the same label
and the same core classification, for the constructor-contract range
`eps ≥ 0`, with or without explicit weights. -/
theorem claim_C9 (eps min_samples : ℚ) (x : List ℚ) (wopt : Option (List ℚ))
    (shape : List ℕ) (heps : 0 ≤ eps) (hs : shape_ok shape = true)
    (hwl : ∀ w0 ∈ wopt, x.length ≤ w0.length)
    (i j : ℕ) (hi : i < x.length) (hj : j < x.length)
    (hval : x.getD i 0 = x.getD j 0) :
    ∃ r, fit eps min_samples ⟨x, shape, wopt⟩ = .ok r ∧
      r.labels.getD i 0 = r.labels.getD j 0 ∧
      (i ∈ r.core_sample_indices ↔ j ∈ r.core_sample_indices) := by
  obtain ⟨w, hfit, hwlen⟩ : ∃ w,
      fit eps min_samples ⟨x, shape, wopt⟩ =
        .ok (fit_result eps min_samples x w) ∧ x.length ≤ w.length := by
    cases wopt with
    | none =>
      refine ⟨x.map (fun _ => 1), ?_, by rw [List.length_map]⟩
      rw [fit_none_eq]
      exact fit_eq_ok eps min_samples x shape _ hs (by rw [List.length_map])
    | some w0 =>
      exact ⟨w0, fit_eq_ok eps min_samples x shape w0 hs (hwl w0 rfl),
        hwl w0 rfl⟩
  obtain ⟨hlab, hcore⟩ := fit_result_spec eps min_samples heps x w hwlen
  refine ⟨_, hfit, ?_, ?_⟩
  · rw [hlab i hi, hlab j hj, hval]
  · rw [hcore]
    simp only [List.mem_filter, List.mem_range]
    rw [hval]
    constructor
    · rintro ⟨-, h⟩
      exact ⟨hj, h⟩
    · rintro ⟨-, h⟩
      exact ⟨hi, h⟩

theorem claim_C9_witness :
    ∃ r, fit 1 2 ⟨[1, 5, 1], [3], none⟩ = .ok r ∧
      r.labels.getD 0 0 = r.labels.getD 2 0 ∧
      (0 ∈ r.core_sample_indices ↔ 2 ∈ r.core_sample_indices) :=
  claim_C9 1 2 [1, 5, 1] none [3] (by norm_num) (by decide)
    (by intro w0 h; cases h) 0 2 (by decide) (by decide) (by decide)

/-- C10: construction validates only the metric string: it succeeds exactly
when the lower-cased metric is "euclidean", for every `eps` and
`min_samples` (zero and negative values included — no positivity check). -/
theorem claim_C10 (eps min_samples : ℚ) (metric : String) :
    (init eps min_samples metric).isOk = true ↔
      metric.toLower = "euclidean" := by
  unfold init
  by_cases h : metric.toLower = "euclidean"
  · rw [if_neg (by simp [h])]
    simp [Except.isOk, Except.toBool, h]
  · rw [if_pos h]
    simp [Except.isOk, Except.toBool, h]

end Dbscan
